import Mathlib

/-!
# Verification of the `displaystr` token-stream transformer

A shallow embedding of `src/lib.rs` of the `displaystr` crate: the
`#[display]` attribute macro that parses an `enum` declaration whose
variants carry string-discriminant templates, strips the templates, and
emits a `Display` implementation.

Token streams are modelled as `List TokenTree`; the mutable peekable
iterator of the Rust code becomes explicit recursion that threads the
remaining list.  Rust panics (`unreachable!`) are modelled as
`Except.error (.panicked msg)`; the two Rust loops that poll an exhausted
iterator forever (the generics loop and the where-clause loop) are
modelled as `Except.error (.diverge loc)`.
-/

/-- String constant for the `doc` modifier keyword. -/
def docKw : String := "doc"

/-- String constant for the `pub` keyword. -/
def pubKw : String := "pub"

/-- String constant for the `enum` keyword. -/
def enumKw : String := "enum"

/-- String constant for the `where` keyword. -/
def whereKw : String := "where"

/-- Diagnostic message for an unexpected modifier token (`display` lines 186, 191). -/
def msgUnexpectedToken : String := "unexpected token"

/-- Diagnostic message of `extract_string` (lib.rs lines 825, 826, 829). -/
def msgExpectedStringLit : String := "expected string literal"

/-- Diagnostic message for a variant without a `= "..."` discriminant. -/
def msgExpectedDisc : String := "expected this variant to have a string discriminant: `= \"...\"`"

/-- Diagnostic message when the input holds no `enum` keyword (lib.rs line 209). -/
def msgExpectedEnumItem : String := "expected an `enum` item"

/-- Panic message of lib.rs line 246. -/
def msgEnumFollowedByIdent : String := "`enum` is always followed by an identifier"

/-- Panic message of lib.rs line 314. -/
def msgEnumHasBraces : String := "enum has braces"

/-- Panic message of lib.rs line 403. -/
def msgIdentMustAppear : String := "identifier must appear in this position"

/-- Panic message of lib.rs line 671. -/
def msgNoOtherToken : String := "no other token is valid in this position"

/-- Panic message of lib.rs line 830: the `unreachable!` arm of `extract_string`. -/
def msgEqFollowedByExpr : String := "`=` is always followed by an expression"

/-- `proc_macro::Delimiter` (the `None` delimiter is never used by this crate's
input grammar or output and is omitted). -/
inductive Delim where
  | paren
  | brace
  | bracket
deriving DecidableEq

/-- `proc_macro::Spacing`. -/
inductive TokSpacing where
  | alone
  | joint
deriving DecidableEq

/-- `proc_macro::Literal`: modelled by its source representation (what
`Literal::to_string()` prints, quotes and escapes included) plus its span.
Spans are plain numbers; `0` stands for `Span::call_site()`. -/
structure Lit where
  repr : String
  span : Nat
deriving DecidableEq

/-- `proc_macro::TokenTree`.  A `group` holds its delimiter, its interior
token stream and its span. -/
inductive TokenTree where
  | ident (name : String) (span : Nat)
  | punct (ch : Char) (spacing : TokSpacing) (span : Nat)
  | lit (l : Lit)
  | group (delim : Delim) (stream : List TokenTree) (span : Nat)

namespace TokenTree

/-- The span of a token (`TokenTree::span()`). -/
def span : TokenTree → Nat
  | .ident _ s => s
  | .punct _ _ s => s
  | .lit l => l.span
  | .group _ _ s => s

/-- Is this token `Punct(c)`?  `proc_macro`'s `Punct == char` comparison
ignores spacing and span. -/
def isPunct (c : Char) : TokenTree → Bool
  | .punct c2 _ _ => c2 = c
  | _ => false

/-- Is this token the identifier `s`? -/
def isIdentStr (s : String) : TokenTree → Bool
  | .ident n _ => n = s
  | _ => false

/-- Is this token a group with delimiter `d`? -/
def isGroupDelim (d : Delim) : TokenTree → Bool
  | .group d2 _ _ => d2 = d
  | _ => false

/-- Is this token a literal? -/
def isLit : TokenTree → Bool
  | .lit _ => true
  | _ => false

end TokenTree

/-- `#` recognizer. -/
def isPound (t : TokenTree) : Bool := t.isPunct '#'

/-- `,` recognizer. -/
def isCommaTok (t : TokenTree) : Bool := t.isPunct ','

/-- `:` recognizer. -/
def isColonTok (t : TokenTree) : Bool := t.isPunct ':'

/-- `=` recognizer. -/
def isEqTok (t : TokenTree) : Bool := t.isPunct '='

/-- `<` recognizer. -/
def isLtTok (t : TokenTree) : Bool := t.isPunct '<'

/-- `>` recognizer. -/
def isGtTok (t : TokenTree) : Bool := t.isPunct '>'

/-- Escape the characters `"` and `\` as `Literal::string` does when it turns
a Rust string into the source form of a string literal.  (The literals
appearing in this development contain no other characters that Rust would
escape.) -/
def escChars : List Char → List Char
  | [] => []
  | c :: cs => (if c = '"' ∨ c = '\\' then ['\\', c] else [c]) ++ escChars cs

/-- The source representation of the string literal produced by
`Literal::string(s)`: quotes around the escaped contents. -/
def strLitRepr (s : String) : String := ⟨'"' :: escChars s.data ++ ['"']⟩

namespace Lit

/-- `proc_macro::Literal::string(s)`: a string literal with call-site span. -/
def string (s : String) : Lit := ⟨strLitRepr s, 0⟩

end Lit

/-- `CompileError` of lib.rs: a span plus a message; rendered as
`compile_error! { "message" }` at that span. -/
structure CompileError where
  span : Nat
  message : String
deriving DecidableEq

namespace CompileError

/-- `CompileError::into_iter` (lib.rs lines 908-934): the three tokens of
`compile_error! { "msg" }`, every one at the error's span. -/
def toTokens (e : CompileError) : List TokenTree :=
  [ .ident "compile_error" e.span,
    .punct '!' .alone e.span,
    .group .brace [.lit ⟨strLitRepr e.message, e.span⟩] e.span ]

end CompileError

/-- Outcomes that end the modelled Rust computation abnormally. -/
inductive Halt where
  | panicked (msg : String)
  | diverge (loc : String)
  | fuelOut
deriving DecidableEq

/-- The modifier parser (`display` lines 181-195).  Recognizes the single
`doc` identifier; a trailing token after it, or any other leading token,
produces an "unexpected token" diagnostic.  Returns the documentation flag
together with the collected diagnostics, in order. -/
def parseArgs : List TokenTree → Bool × List CompileError
  | [] => (false, [])
  | t :: rest =>
      match t with
      | .ident n nspan =>
          if n = docKw then
            (true, match rest with
                   | [] => []
                   | nt :: _ => [⟨nt.span, msgUnexpectedToken⟩])
          else (false, [⟨nspan, msgUnexpectedToken⟩])
      | _ => (false, [⟨t.span, msgUnexpectedToken⟩])

/-- `extract_string` (lib.rs lines 810-832).  Consumes one token from the
stream: a literal succeeds alone; a parenthesized group succeeds when its
first interior token is a literal (the remaining interior tokens become the
extra arguments); anything else yields an "expected string literal"
diagnostic.  An exhausted stream hits `unreachable!` and panics. -/
def extract_string :
    List TokenTree → Except Halt (Except CompileError (Lit × List TokenTree) × List TokenTree)
  | [] => .error (.panicked msgEqFollowedByExpr)
  | t :: rest =>
      match t with
      | .lit l => .ok (.ok (l, []), rest)
      | .group .paren gs gspan =>
          match gs with
          | .lit l :: more => .ok (.ok (l, more), rest)
          | x :: _ => .ok (.error ⟨x.span, msgExpectedStringLit⟩, rest)
          | [] => .ok (.error ⟨gspan, msgExpectedStringLit⟩, rest)
      | _ => .ok (.error ⟨t.span, msgExpectedStringLit⟩, rest)

/-- `extract_eq_string` (lib.rs lines 776-793).  Consumes the token after a
variant's field group: a `=` delegates to `extract_string`; any other token
(which is consumed and dropped) or an exhausted stream yields the
"missing string discriminant" diagnostic at the variant identifier's span. -/
def extract_eq_string (ts : List TokenTree) (variantIdentSpan : Nat) :
    Except Halt (Except CompileError (Lit × List TokenTree) × List TokenTree) :=
  match ts with
  | [] => .ok (.error ⟨variantIdentSpan, msgExpectedDisc⟩, [])
  | t :: rest =>
      if isEqTok t then extract_string rest
      else .ok (.error ⟨variantIdentSpan, msgExpectedDisc⟩, rest)

/-- `doc_comment` (lib.rs lines 796-808): the two tokens of
`#[doc = "content"]`, all pieces at call-site span. -/
def doc_comment (content : String) : List TokenTree :=
  [ .punct '#' .joint 0,
    .group .bracket
      [.ident docKw 0, .punct '=' .joint 0, .lit (Lit.string content)] 0 ]

/-- `generate_arm` (lib.rs lines 850-888): the twelve tokens of one match arm
`Self::Variant <destructure> => f.write_fmt(::core::format_args!(<string> <stream>)),`. -/
def generate_arm (variant : String) (destructure : TokenTree) (string : Lit)
    (stream : List TokenTree) : List TokenTree :=
  [ .ident "Self" 0,
    .punct ':' .joint 0,
    .punct ':' .joint 0,
    .ident variant 0,
    destructure,
    .punct '=' .joint 0,
    .punct '>' .joint 0,
    .ident "f" 0,
    .punct '.' .joint 0,
    .ident "write_fmt" 0,
    .group .paren
      [ .punct ':' .joint 0,
        .punct ':' .joint 0,
        .ident "core" 0,
        .punct ':' .joint 0,
        .punct ':' .joint 0,
        .ident "format_args" 0,
        .punct '!' .joint 0,
        .group .paren (.lit string :: stream) 0 ] 0,
    .punct ',' .joint 0 ]

/-- The skip-to-`enum` loop (`display` lines 207-239): re-emits every token
until and including the `enum` keyword; after a `#` the following token is
re-emitted blindly as the attribute group.  `none` models the early return
`expected an enum item` when the stream is exhausted first. -/
def skipToEnum : List TokenTree → Option (List TokenTree × List TokenTree)
  | [] => none
  | t :: rest =>
      if t.isIdentStr enumKw then some ([t], rest)
      else if isPound t then
        match rest with
        | [] => none
        | a :: rest2 =>
            match skipToEnum rest2 with
            | none => none
            | some (out, r) => some (t :: a :: out, r)
      else
        match skipToEnum rest with
        | none => none
        | some (out, r) => some (t :: out, r)

/-- The generics-collection loop (`display` lines 263-277), entered after the
opening `<` was consumed.  It stops at the FIRST `>` token — no bracket
depth is tracked.  When the stream is exhausted first, the Rust loop matches
`None`, extends nothing, and polls the exhausted iterator forever; that
divergence is modelled as `.error (.diverge ..)`. -/
def genLoop : List TokenTree → Except Halt (List TokenTree × List TokenTree)
  | [] => .error (.diverge "generics loop")
  | t :: rest =>
      if isGtTok t then .ok ([t], rest)
      else
        match genLoop rest with
        | .error h => .error h
        | .ok (g, r) => .ok (t :: g, r)

/-- The where-clause loop (`display` lines 291-298), entered after the
`where` keyword was consumed.  It stops (without consuming) at the first
brace-delimited group.  When the stream is exhausted first, the Rust loop
peeks `None`, takes the wildcard arm, extends nothing, and loops forever;
modelled as `.error (.diverge ..)`. -/
def whereLoop : List TokenTree → Except Halt (List TokenTree × List TokenTree)
  | [] => .error (.diverge "where loop")
  | t :: rest =>
      if t.isGroupDelim .brace then .ok ([], t :: rest)
      else
        match whereLoop rest with
        | .error h => .error h
        | .ok (w, r) => .ok (t :: w, r)

/-- The variant-attribute loop (`display` lines 344-357): while the head is
`#`, the `#` and the following token (whatever it is) are consumed and
re-emitted.  Returns the re-emitted tokens and the rest of the stream. -/
def parseAttrs : List TokenTree → List TokenTree × List TokenTree
  | [] => ([], [])
  | t :: rest =>
      if isPound t then
        match rest with
        | [] => ([t], [])
        | a :: rest2 =>
            match parseAttrs rest2 with
            | (out, r) => (t :: a :: out, r)
      else ([], t :: rest)

/-- The visibility parser (`display` lines 373-391): an optional `pub`
identifier, optionally followed by a parenthesized qualifier group. -/
def parseVis : List TokenTree → List TokenTree × List TokenTree
  | [] => ([], [])
  | t :: rest =>
      if t.isIdentStr pubKw then
        match rest with
        | [] => ([t], [])
        | g :: rest2 =>
            if g.isGroupDelim .paren then ([t, g], rest2)
            else ([t], g :: rest2)
      else ([], t :: rest)

/-- The comma-count loop of the tuple-variant branch (`display` lines
428-439): counts `,` tokens that are not the last token of the group. -/
def countCommas : List TokenTree → Nat
  | [] => 0
  | t :: rest => (if isCommaTok t ∧ rest.isEmpty = false then 1 else 0) + countCommas rest

/-- `variant_count` of the tuple-variant branch (`display` line 445):
`0` for an empty group, else one more than the non-trailing commas. -/
def variantCount (fields : List TokenTree) : Nat :=
  if fields.isEmpty then 0 else 1 + countCommas fields

/-- The tuple destructure bindings (`display` lines 449-456):
`_0 , _1 , ...`, one identifier and one joint comma per field. -/
def posBindings (n : Nat) : List TokenTree :=
  (List.range n).flatMap fun i =>
    [TokenTree.ident ((String.mk ['_']) ++ toString i) 0, TokenTree.punct ',' .joint 0]

/-- The named-field scan of the struct-variant branch (`display` lines
507-538).  Walks the field group's interior with current/peek pairs and an
`is_inside_type` flag: a `:` peeked outside a type region emits the current
token (the field name) plus a joint comma and turns the flag on; a `,`
peeked inside a type region turns it off; an exhausted peek stops. -/
def namedScan : List TokenTree → Bool → List TokenTree
  | [], _ => []
  | [_], _ => []
  | c :: p :: rest, inside =>
      if isColonTok p ∧ ¬inside then
        c :: .punct ',' .joint 0 :: namedScan (p :: rest) true
      else if isCommaTok p ∧ inside then namedScan (p :: rest) false
      else namedScan (p :: rest) inside

/-- The trailing-comma check after a variant (`display` lines 490-496,
572-578, 619-625): consume the head token exactly when it is a comma. -/
def takeTrailingComma : List TokenTree → List TokenTree × List TokenTree
  | [] => ([], [])
  | t :: rest => if isCommaTok t then ([t], rest) else ([], t :: rest)

/-- Result of one iteration of the variant loop: either the loop continues
with the remaining stream, or it breaks (the `None` arm of lib.rs line 653),
or the iteration hit an `unreachable!`.  Each constructor carries the tokens
this iteration appended to `variants`, to `arms`, and to `compile_errors`. -/
inductive StepRes where
  | cont (variants arms : List TokenTree) (errs : List CompileError) (rest : List TokenTree)
  | brk (variants arms : List TokenTree) (errs : List CompileError)
  | halted (h : Halt)

/-- The doc-comment tokens, match arm, and diagnostics produced from one
template-extraction result (the common tail of the three discriminant
branches of the variant loop): on success the extracted literal and extra
arguments, on failure the default empty-string arm plus the diagnostic. -/
def armOfExtraction (doc : Bool) (vname : String) (destr : TokenTree)
    (res : Except CompileError (Lit × List TokenTree)) :
    List TokenTree × List TokenTree × List CompileError :=
  match res with
  | .ok (l, extras) =>
      (if doc then doc_comment l.repr else [], generate_arm vname destr l extras, [])
  | .error e => ([], generate_arm vname destr (Lit.string "") [], [e])

/-- The shared tail of the tuple-variant and struct-variant branches
(lib.rs lines 462-496 and 544-578): extract `= template`, build the arm (or
the dummy arm plus diagnostic), then consume an optional trailing comma. -/
def finishShaped (doc : Bool) (atoks vtoks : List TokenTree) (vname : String) (vspan : Nat)
    (nameTok groupTok destr : TokenTree) (r4 : List TokenTree) : StepRes :=
  match extract_eq_string r4 vspan with
  | .error h => .halted h
  | .ok (res, r5) =>
      match armOfExtraction doc vname destr res with
      | (dtoks, armToks, errs) =>
        match takeTrailingComma r5 with
        | (ctoks, r6) =>
            .cont (atoks ++ dtoks ++ vtoks ++ [nameTok, groupTok] ++ ctoks) armToks errs r6

/-- The branch of the variant loop on the token after the variant
identifier (lib.rs lines 408-672). -/
def stepAfterIdent (doc : Bool) (atoks vtoks : List TokenTree) (vname : String) (vspan : Nat)
    (r3 : List TokenTree) : StepRes :=
  match r3 with
  | .group .paren f gspan :: r4 =>
      -- tuple variant (lib.rs lines 408-497)
      finishShaped doc atoks vtoks vname vspan (.ident vname vspan)
        (.group .paren f gspan) (.group .paren (posBindings (variantCount f)) 0) r4
  | .group .brace f gspan :: r4 =>
      -- struct variant (lib.rs lines 502-579)
      finishShaped doc atoks vtoks vname vspan (.ident vname vspan)
        (.group .brace f gspan) (.group .brace (namedScan f false) 0) r4
  | t :: r4 =>
      if isEqTok t then
        -- unit variant with a discriminant (lib.rs lines 584-625)
        match extract_string r4 with
        | .error h => .halted h
        | .ok (res, r5) =>
          match armOfExtraction doc vname (.group .brace [] 0) res with
          | (dtoks, armToks, errs) =>
            match takeTrailingComma r5 with
            | (ctoks, r6) =>
                .cont (atoks ++ dtoks ++ vtoks ++ [.ident vname vspan] ++ ctoks)
                  armToks errs r6
      else if isCommaTok t then
        -- unit variant followed by a comma, missing discriminant
        -- (lib.rs lines 631-648); the comma goes into the variant buffer
        .cont (atoks ++ vtoks ++ [.ident vname vspan, t])
          (generate_arm vname (.group .brace [] 0) (Lit.string "") [])
          [⟨vspan, msgExpectedDisc⟩] r4
      else .halted (.panicked msgNoOtherToken)
  | [] =>
      -- last unit variant with nothing after it (lib.rs lines 653-670):
      -- diagnostic, dummy arm, `break` — the `variant` buffer (visibility
      -- and identifier) is discarded, only the already flushed attribute
      -- tokens stay in `variants`
      .brk atoks (generate_arm vname (.group .brace [] 0) (Lit.string "") [])
        [⟨vspan, msgExpectedDisc⟩]

/-- One iteration of the variant loop of `display` (lib.rs lines 337-675),
for a non-empty variant body.  Order of the appended `variants` tokens is
the code's: the attribute tokens first (flushed eagerly, line 349), then the
optional doc comment (inserted during template extraction), then the
`variant` buffer (visibility, identifier, field group, trailing comma). -/
def stepVariant (doc : Bool) (body : List TokenTree) : StepRes :=
  match parseAttrs body with
  | (atoks, r1) =>
    match parseVis r1 with
    | (vtoks, r2) =>
      match r2 with
      | [] => .halted (.panicked msgIdentMustAppear)
      | nameTok :: r3 =>
        match nameTok with
        | .ident vname vspan => stepAfterIdent doc atoks vtoks vname vspan r3
        | _ => .halted (.panicked msgIdentMustAppear)

/-- The variant loop of `display` (lib.rs lines 337-675), driven by fuel.
Each Rust iteration consumes at least the variant identifier, so running
with the body's length as fuel (`parseVariantsRun`) never exhausts it; the
`.fuelOut` branch exists only to make the recursion structural. -/
def parseVariantsF (doc : Bool) :
    Nat → List TokenTree → Except Halt (List TokenTree × List TokenTree × List CompileError)
  | _, [] => .ok ([], [], [])
  | 0, _ => .error .fuelOut
  | fuel + 1, body =>
      match stepVariant doc body with
      | .halted h => .error h
      | .brk v a e => .ok (v, a, e)
      | .cont v a e rest =>
          match parseVariantsF doc fuel rest with
          | .error h => .error h
          | .ok (v2, a2, e2) => .ok (v ++ v2, a ++ a2, e ++ e2)

/-- The variant loop run with sufficient fuel. -/
def parseVariantsRun (doc : Bool) (body : List TokenTree) :
    Except Halt (List TokenTree × List TokenTree × List CompileError) :=
  parseVariantsF doc body.length body

/-- The `Display` impl skeleton (lib.rs lines 698-758), with the match arms
spliced into the innermost brace group. -/
def displayImpl (enumIdent : TokenTree) (arms : List TokenTree) : List TokenTree :=
  [ .ident "impl" 0,
    .punct ':' .joint 0,
    .punct ':' .joint 0,
    .ident "core" 0,
    .punct ':' .joint 0,
    .punct ':' .joint 0,
    .ident "fmt" 0,
    .punct ':' .joint 0,
    .punct ':' .joint 0,
    .ident "Display" 0,
    .ident "for" 0,
    enumIdent,
    .group .brace
      [ .ident "fn" 0,
        .ident "fmt" 0,
        .group .paren
          [ .punct '&' .joint 0,
            .ident "self" 0,
            .punct ',' .joint 0,
            .ident "f" 0,
            .punct ':' .joint 0,
            .punct '&' .joint 0,
            .ident "mut" 0,
            .punct ':' .joint 0,
            .punct ':' .joint 0,
            .ident "core" 0,
            .punct ':' .joint 0,
            .punct ':' .joint 0,
            .ident "fmt" 0,
            .punct ':' .joint 0,
            .punct ':' .joint 0,
            .ident "Formatter" 0 ] 0,
        .punct '-' .joint 0,
        .punct '>' .joint 0,
        .punct ':' .joint 0,
        .punct ':' .joint 0,
        .ident "core" 0,
        .punct ':' .joint 0,
        .punct ':' .joint 0,
        .ident "fmt" 0,
        .punct ':' .joint 0,
        .punct ':' .joint 0,
        .ident "Result" 0,
        .group .brace
          [ .ident "match" 0,
            .ident "self" 0,
            .group .brace arms 0 ] 0 ] 0 ]

/-- The named pieces `display` computes before assembling its output:
the re-emitted header (up to and including `enum`), the enum identifier
token, the generics tokens, the where-clause tokens, the cleaned variant
list, the match arms, and the collected diagnostics (modifier diagnostics
first, then variant diagnostics in order). -/
structure DisplayParts where
  headerOut : List TokenTree
  enumIdent : TokenTree
  generics : List TokenTree
  whereClause : List TokenTree
  variants : List TokenTree
  arms : List TokenTree
  errors : List CompileError
  docFlag : Bool

/-- Result of the `display` pipeline before final token assembly: either the
early `expected an enum item` return (lib.rs lines 208-212, which drops any
modifier diagnostics), or the full set of parts. -/
inductive DisplayResult where
  | noEnum (toks : List TokenTree)
  | success (parts : DisplayParts)

/-- The `display` pipeline (lib.rs lines 177-763) up to final assembly. -/
def displayParts (args ts : List TokenTree) : Except Halt DisplayResult :=
  match parseArgs args with
  | (docFlag, argErrs) =>
    match skipToEnum ts with
    | none => .ok (.noEnum (CompileError.toTokens ⟨0, msgExpectedEnumItem⟩))
    | some (headerOut, r1) =>
      match r1 with
      | .ident ename espan :: r2 =>
        let identTok := TokenTree.ident ename espan
        -- generics (lib.rs lines 254-282)
        let gstep : Except Halt (List TokenTree × List TokenTree) :=
          match r2 with
          | t :: r3 =>
              if isLtTok t then
                match genLoop r3 with
                | .error h => .error h
                | .ok (g, r4) => .ok (t :: g, r4)
              else .ok ([], t :: r3)
          | [] => .ok ([], [])
        (match gstep with
         | .error h => .error h
         | .ok (generics, r5) =>
           -- where clause (lib.rs lines 286-303)
           let wstep : Except Halt (List TokenTree × List TokenTree) :=
             match r5 with
             | t :: r6 =>
                 if t.isIdentStr whereKw then
                   match whereLoop r6 with
                   | .error h => .error h
                   | .ok (w, r7) => .ok (t :: w, r7)
                 else .ok ([], t :: r6)
             | [] => .ok ([], [])
           match wstep with
           | .error h => .error h
           | .ok (whereClause, r8) =>
             -- enum body (lib.rs lines 310-315); tokens after the brace
             -- group are never polled again
             match r8 with
             | .group .brace bodyToks _ :: _ =>
                 match parseVariantsRun docFlag bodyToks with
                 | .error h => .error h
                 | .ok (variants, arms, verrs) =>
                     .ok (.success
                       { headerOut := headerOut
                         enumIdent := identTok
                         generics := generics
                         whereClause := whereClause
                         variants := variants
                         arms := arms
                         errors := argErrs ++ verrs
                         docFlag := docFlag })
             | _ => .error (.panicked msgEnumHasBraces))
      | _ => .error (.panicked msgEnumFollowedByIdent)

/-- Final assembly of `display`'s output (lib.rs lines 678-763): the cleaned
declaration, then the `compile_error!` constructs, then the `Display` impl. -/
def assembleOutput (p : DisplayParts) : List TokenTree :=
  p.headerOut ++ [p.enumIdent] ++ p.generics ++ p.whereClause
    ++ [.group .brace p.variants 0]
    ++ p.errors.flatMap CompileError.toTokens
    ++ displayImpl p.enumIdent p.arms

/-- The whole `display` entry point as a function from the modifier stream
and the item stream to the output stream (or an abnormal outcome). -/
def display (args ts : List TokenTree) : Except Halt (List TokenTree) :=
  match displayParts args ts with
  | .error h => .error h
  | .ok (.noEnum toks) => .ok toks
  | .ok (.success p) => .ok (assembleOutput p)

/-! ## A grammar of variant bodies

`SVariant` describes one variant as the variant loop recognizes it:
leading attribute pairs, an optional visibility qualifier, the identifier,
a field shape, the discriminant region, and an optional trailing comma.
Flattening a list of `SVariant`s produces the token stream of an enum body;
the well-formedness predicate `svariantsOkB` states exactly the shape
conditions under which the variant loop takes the corresponding branches. -/

/-- The field shape of a variant: unit, parenthesized (tuple) with the
group's interior tokens and span, or brace-delimited (struct) likewise. -/
inductive SShape where
  | unit
  | pos (fields : List TokenTree) (gspan : Nat)
  | named (fields : List TokenTree) (gspan : Nat)

/-- The discriminant region of a variant: `= tok` (where `tok` is the single
token holding the template — a literal or a parenthesized group), or a
comma with no discriminant, or nothing at all (only legal for the last
variant). -/
inductive SDisc where
  | eq (eqTok valTok : TokenTree)
  | missingComma (c : TokenTree)
  | lastNone

/-- One variant of the enum body. -/
structure SVariant where
  attrs : List (TokenTree × TokenTree)
  vis : List TokenTree
  nameTok : TokenTree
  shape : SShape
  disc : SDisc
  trailing : Option TokenTree

/-- The visibility region is empty, `pub`, or `pub` plus a parenthesized
qualifier group. -/
def visOkB : List TokenTree → Bool
  | [] => true
  | [t] => t.isIdentStr pubKw
  | [t, g] => t.isIdentStr pubKw && g.isGroupDelim .paren
  | _ => false

/-- The variant identifier is an identifier other than `pub`. -/
def nameOkB : TokenTree → Bool
  | .ident n _ => !(n = pubKw)
  | _ => false

/-- Discriminant well-formedness: `eq` needs a real `=` token; a missing
discriminant marked by a comma forbids a separate trailing comma (the comma
is the one token); an absent discriminant region is only allowed for the
last variant and likewise has no trailing comma. -/
def discOkB (d : SDisc) (isLast : Bool) (trailing : Option TokenTree) : Bool :=
  match d with
  | .eq e _ => isEqTok e
  | .missingComma c => isCommaTok c && trailing.isNone
  | .lastNone => isLast && trailing.isNone

/-- A trailing token, when present, is a comma. -/
def trailingOkB : Option TokenTree → Bool
  | none => true
  | some c => isCommaTok c

/-- Well-formedness of one variant (`isLast` records whether it is the last
one in the body). -/
def svariantOkB (v : SVariant) (isLast : Bool) : Bool :=
  v.attrs.all (fun p => isPound p.1) && visOkB v.vis && nameOkB v.nameTok
    && discOkB v.disc isLast v.trailing && trailingOkB v.trailing

/-- Well-formedness of a variant list. -/
def svariantsOkB : List SVariant → Bool
  | [] => true
  | v :: rest => svariantOkB v rest.isEmpty && svariantsOkB rest

/-- Tokens of the attribute region: each pair flattened as `#` + group. -/
def attrToks (attrs : List (TokenTree × TokenTree)) : List TokenTree :=
  attrs.flatMap fun p => [p.1, p.2]

/-- Tokens of the field-shape region. -/
def SShape.toTokens : SShape → List TokenTree
  | .unit => []
  | .pos f gs => [.group .paren f gs]
  | .named f gs => [.group .brace f gs]

/-- Tokens of the discriminant region. -/
def SDisc.toTokens : SDisc → List TokenTree
  | .eq e t => [e, t]
  | .missingComma c => [c]
  | .lastNone => []

/-- Tokens of the optional trailing comma. -/
def trailingToks : Option TokenTree → List TokenTree
  | none => []
  | some c => [c]

/-- The token stream of one variant exactly as written in the source. -/
def flattenSVariant (v : SVariant) : List TokenTree :=
  attrToks v.attrs ++ v.vis ++ [v.nameTok] ++ v.shape.toTokens
    ++ v.disc.toTokens ++ trailingToks v.trailing

/-- The token stream of an enum body holding the given variants. -/
def flattenSVariants (vs : List SVariant) : List TokenTree :=
  vs.flatMap flattenSVariant

namespace SVariant

/-- The variant identifier's name (well-formedness guarantees an identifier). -/
def identName (v : SVariant) : String :=
  match v.nameTok with
  | .ident n _ => n
  | _ => ""

/-- The variant identifier's span. -/
def identSpan (v : SVariant) : Nat :=
  match v.nameTok with
  | .ident _ s => s
  | _ => 0

/-- The destructure token the loop builds for this variant's shape:
`{}` for unit variants, `(_0, _1, ...)` for tuple variants, and the
named-scan result in braces for struct variants. -/
def destructure (v : SVariant) : TokenTree :=
  match v.shape with
  | .unit => .group .brace [] 0
  | .pos f _ => .group .paren (posBindings (variantCount f)) 0
  | .named f _ => .group .brace (namedScan f false) 0

end SVariant

/-- What template extraction yields for the single token following `=`:
this is `extract_string` restricted to its one consumed token. -/
def templateOutcome : TokenTree → Except CompileError (Lit × List TokenTree)
  | .lit l => .ok (l, [])
  | .group .paren (.lit l :: more) _ => .ok (l, more)
  | .group .paren (x :: _) _ => .error ⟨x.span, msgExpectedStringLit⟩
  | .group .paren [] gspan => .error ⟨gspan, msgExpectedStringLit⟩
  | t => .error ⟨t.span, msgExpectedStringLit⟩

namespace SVariant

/-- The extraction result the loop obtains for this variant. -/
def extraction (v : SVariant) : Except CompileError (Lit × List TokenTree) :=
  match v.disc with
  | .eq _ t => templateOutcome t
  | .missingComma _ => .error ⟨v.identSpan, msgExpectedDisc⟩
  | .lastNone => .error ⟨v.identSpan, msgExpectedDisc⟩

/-- True when template extraction fails for this variant. -/
def extractionFailed (v : SVariant) : Bool :=
  match v.extraction with
  | .ok _ => false
  | .error _ => true

/-- The one match arm the loop emits for this variant: the extracted
template on success, the default empty-string template with no extra
arguments on failure. -/
def arm (v : SVariant) : List TokenTree :=
  match v.extraction with
  | .ok (l, extras) => generate_arm v.identName v.destructure l extras
  | .error _ => generate_arm v.identName v.destructure (Lit.string "") []

/-- The diagnostics the loop emits for this variant. -/
def errs (v : SVariant) : List CompileError :=
  match v.extraction with
  | .ok _ => []
  | .error e => [e]

/-- The doc-comment tokens inserted for this variant (only in doc mode and
only on successful extraction; the content is the template literal's source
representation, which is what `Literal::to_string()` prints). -/
def docToks (v : SVariant) (doc : Bool) : List TokenTree :=
  match v.extraction with
  | .ok (l, _) => if doc then doc_comment l.repr else []
  | .error _ => []

/-- Is this the degenerate last unit variant with no discriminant at all
(the `None` arm that breaks the loop and discards the variant buffer)? -/
def isUnitLast (v : SVariant) : Bool :=
  match v.shape, v.disc with
  | .unit, .lastNone => true
  | _, _ => false

/-- The tokens this variant contributes to the cleaned variant list. -/
def cleanToks (v : SVariant) (doc : Bool) : List TokenTree :=
  match v.shape, v.disc with
  | .unit, .lastNone => attrToks v.attrs
  | _, _ =>
      attrToks v.attrs ++ v.docToks doc ++ v.vis ++ [v.nameTok] ++ v.shape.toTokens
        ++ (match v.disc with
            | .missingComma c =>
                (match v.shape with
                 | .unit => [c]
                 | _ => [])
            | _ => trailingToks v.trailing)

end SVariant

/-! ## Small facts about the recognizers and one-step parsers -/

theorem isPunct_ident (c : Char) (n : String) (s : Nat) :
    TokenTree.isPunct c (.ident n s) = false := rfl

theorem isPunct_lit (c : Char) (l : Lit) : TokenTree.isPunct c (.lit l) = false := rfl

theorem isPunct_group (c : Char) (d : Delim) (g : List TokenTree) (s : Nat) :
    TokenTree.isPunct c (.group d g s) = false := rfl

theorem isPunct_punct (c c2 : Char) (sp : TokSpacing) (s : Nat) :
    TokenTree.isPunct c (.punct c2 sp s) = decide (c2 = c) := rfl

theorem isPunct_inv {c : Char} {t : TokenTree} (h : t.isPunct c = true) :
    ∃ sp s, t = .punct c sp s := by
  cases t <;>
    simp only [TokenTree.isPunct, decide_eq_true_eq, Bool.false_eq_true] at h
  next ch sp s => exact ⟨sp, s, by rw [h]⟩

theorem isIdentStr_inv {k : String} {t : TokenTree} (h : t.isIdentStr k = true) :
    ∃ s, t = .ident k s := by
  cases t <;>
    simp only [TokenTree.isIdentStr, decide_eq_true_eq, Bool.false_eq_true] at h
  next n s => exact ⟨s, by rw [h]⟩

theorem isGroupDelim_inv {d : Delim} {t : TokenTree} (h : t.isGroupDelim d = true) :
    ∃ g s, t = .group d g s := by
  cases t <;>
    simp only [TokenTree.isGroupDelim, decide_eq_true_eq, Bool.false_eq_true] at h
  next d2 g s => exact ⟨g, s, by rw [h]⟩

/-- `extract_string` on a non-empty stream consumes exactly its head and
classifies it by `templateOutcome`. -/
theorem extract_string_cons (t : TokenTree) (rest : List TokenTree) :
    extract_string (t :: rest) = .ok (templateOutcome t, rest) := by
  cases t with
  | ident n s => rfl
  | punct c sp s => rfl
  | lit l => rfl
  | group d g gs =>
      cases d with
      | paren =>
          cases g with
          | nil => rfl
          | cons x more => cases x <;> rfl
      | brace => rfl
      | bracket => rfl

theorem extract_eq_string_eq {e : TokenTree} (he : isEqTok e = true)
    (t : TokenTree) (rest : List TokenTree) (sp : Nat) :
    extract_eq_string (e :: t :: rest) sp = .ok (templateOutcome t, rest) := by
  simp only [extract_eq_string, he, if_true, extract_string_cons]

theorem extract_eq_string_noneq {c : TokenTree} (hc : isEqTok c = false)
    (rest : List TokenTree) (sp : Nat) :
    extract_eq_string (c :: rest) sp = .ok (.error ⟨sp, msgExpectedDisc⟩, rest) := by
  simp only [extract_eq_string, hc, Bool.false_eq_true, if_false]

theorem extract_eq_string_nil (sp : Nat) :
    extract_eq_string [] sp = .ok (.error ⟨sp, msgExpectedDisc⟩, []) := rfl

/-- Head-of-stream test used for the trailing-comma bookkeeping. -/
def headNotComma : List TokenTree → Bool
  | [] => true
  | t :: _ => !isCommaTok t

theorem takeTrailingComma_comma {c : TokenTree} (hc : isCommaTok c = true)
    (r : List TokenTree) : takeTrailingComma (c :: r) = ([c], r) := by
  simp only [takeTrailingComma, hc, if_true]

theorem takeTrailingComma_none {r : List TokenTree} (h : headNotComma r = true) :
    takeTrailingComma r = ([], r) := by
  cases r with
  | nil => rfl
  | cons t r2 =>
      simp only [headNotComma, Bool.not_eq_true'] at h
      simp only [takeTrailingComma, h, Bool.false_eq_true, if_false]

/-- The attribute loop consumes exactly a flattened list of `#`-pound pairs
when the following token is an identifier. -/
theorem parseAttrs_flat (ps : List (TokenTree × TokenTree)) (n : String) (sp : Nat)
    (r2 : List TokenTree) (hps : ps.all (fun p => isPound p.1) = true) :
    parseAttrs (attrToks ps ++ (.ident n sp :: r2)) = (attrToks ps, .ident n sp :: r2) := by
  induction ps with
  | nil =>
      simp only [attrToks, List.flatMap_nil, List.nil_append]
      unfold parseAttrs
      simp [isPound, TokenTree.isPunct]
  | cons p ps ih =>
      simp only [List.all_cons, Bool.and_eq_true] at hps
      have hstep := ih hps.2
      simp only [attrToks, List.flatMap_cons, List.cons_append, List.append_assoc] at hstep ⊢
      simp only [parseAttrs, hps.1, if_true, List.nil_append]
      rw [hstep]

/-- The visibility parser on an empty visibility region followed by a
non-`pub` identifier consumes nothing. -/
theorem parseVis_empty {n : String} (hn : ¬(n = pubKw)) (s : Nat)
    (r : List TokenTree) :
    parseVis (.ident n s :: r) = ([], .ident n s :: r) := by
  simp [parseVis, TokenTree.isIdentStr, hn]

theorem parseVis_pub {p : TokenTree} (hp : p.isIdentStr pubKw = true)
    (n : String) (s : Nat) (r : List TokenTree) :
    parseVis (p :: .ident n s :: r) = ([p], .ident n s :: r) := by
  simp only [parseVis, hp, if_true, TokenTree.isGroupDelim, Bool.false_eq_true, if_false]

theorem parseVis_pubGroup {p g : TokenTree} (hp : p.isIdentStr pubKw = true)
    (hg : g.isGroupDelim .paren = true) (r : List TokenTree) :
    parseVis (p :: g :: r) = ([p, g], r) := by
  simp only [parseVis, hp, if_true, hg]

theorem isCommaTok_isEqTok {c : TokenTree} (h : isCommaTok c = true) :
    isEqTok c = false := by
  obtain ⟨sp, s, rfl⟩ := isPunct_inv h
  rfl

theorem finishShaped_eq {e : TokenTree} (he : isEqTok e = true) (doc : Bool)
    (atoks vtoks : List TokenTree) (vname : String) (vspan : Nat)
    (nameTok groupTok destr t : TokenTree) (trail : Option TokenTree)
    (htr : trailingOkB trail = true) (tail : List TokenTree)
    (htail : headNotComma tail = true) :
    finishShaped doc atoks vtoks vname vspan nameTok groupTok destr
        (e :: t :: (trailingToks trail ++ tail)) =
      .cont (atoks ++ (armOfExtraction doc vname destr (templateOutcome t)).1
              ++ vtoks ++ [nameTok, groupTok] ++ trailingToks trail)
        (armOfExtraction doc vname destr (templateOutcome t)).2.1
        (armOfExtraction doc vname destr (templateOutcome t)).2.2 tail := by
  rcases hA : armOfExtraction doc vname destr (templateOutcome t) with ⟨d, a, er⟩
  cases trail with
  | none =>
      simp only [trailingToks, List.nil_append, List.append_nil]
      simp only [finishShaped, extract_eq_string_eq he, hA, takeTrailingComma_none htail,
        List.append_nil]
  | some c =>
      simp only [trailingOkB] at htr
      simp only [trailingToks, List.cons_append, List.nil_append]
      simp only [finishShaped, extract_eq_string_eq he, hA, takeTrailingComma_comma htr]

theorem finishShaped_noEq {c : TokenTree} (hc : isEqTok c = false) (doc : Bool)
    (atoks vtoks : List TokenTree) (vname : String) (vspan : Nat)
    (nameTok groupTok destr : TokenTree) (rest : List TokenTree)
    (hrest : headNotComma rest = true) :
    finishShaped doc atoks vtoks vname vspan nameTok groupTok destr (c :: rest) =
      .cont (atoks ++ vtoks ++ [nameTok, groupTok])
        (generate_arm vname destr (Lit.string "") [])
        [⟨vspan, msgExpectedDisc⟩] rest := by
  simp only [finishShaped, extract_eq_string_noneq hc, armOfExtraction,
    takeTrailingComma_none hrest, List.nil_append, List.append_nil]

theorem finishShaped_nil (doc : Bool) (atoks vtoks : List TokenTree)
    (vname : String) (vspan : Nat) (nameTok groupTok destr : TokenTree) :
    finishShaped doc atoks vtoks vname vspan nameTok groupTok destr [] =
      .cont (atoks ++ vtoks ++ [nameTok, groupTok])
        (generate_arm vname destr (Lit.string "") [])
        [⟨vspan, msgExpectedDisc⟩] [] := by
  simp only [finishShaped, extract_eq_string_nil, armOfExtraction, takeTrailingComma,
    List.nil_append, List.append_nil]

theorem nameOkB_inv {t : TokenTree} (h : nameOkB t = true) :
    ∃ n s, ¬(n = pubKw) ∧ t = .ident n s := by
  cases t <;> simp only [nameOkB, Bool.false_eq_true] at h
  next n s =>
    simp only [Bool.not_eq_true', decide_eq_false_iff_not] at h
    exact ⟨n, s, h, rfl⟩

theorem isEqTok_eqPunct (sp : TokSpacing) (s : Nat) :
    isEqTok (.punct '=' sp s) = true := rfl

theorem isEqTok_commaPunct (sp : TokSpacing) (s : Nat) :
    isEqTok (.punct ',' sp s) = false := rfl

theorem isCommaTok_commaPunct (sp : TokSpacing) (s : Nat) :
    isCommaTok (.punct ',' sp s) = true := rfl

/-- One loop iteration on a flattened well-formed variant consumes exactly
that variant's tokens and produces its cleaned tokens, its single arm and
its diagnostics; the loop breaks (discarding the variant buffer) only in
the degenerate last-unit-no-discriminant case. -/
theorem stepVariant_flatten (doc : Bool) (v : SVariant) (tail : List TokenTree)
    (hok : svariantOkB v tail.isEmpty = true)
    (htail : headNotComma tail = true) :
    stepVariant doc (flattenSVariant v ++ tail) =
      if v.isUnitLast then StepRes.brk (v.cleanToks doc) v.arm v.errs
      else StepRes.cont (v.cleanToks doc) v.arm v.errs tail := by
  obtain ⟨attrs, vis, nameTok, shape, disc, trailing⟩ := v
  simp only [svariantOkB, Bool.and_eq_true] at hok
  obtain ⟨⟨⟨⟨ha, hv⟩, hn⟩, hd⟩, ht⟩ := hok
  obtain ⟨n, s, hnp, rfl⟩ := nameOkB_inv hn
  have hmain : ∀ R : List TokenTree,
      stepVariant doc (attrToks attrs ++ (vis ++ (.ident n s :: R)))
        = stepAfterIdent doc (attrToks attrs) vis n s R := by
    intro R
    rcases vis with _ | ⟨p, _ | ⟨g, _ | ⟨q, vrest⟩⟩⟩
    · simp only [List.nil_append]
      simp only [stepVariant, parseAttrs_flat attrs n s R ha, parseVis_empty hnp]
    · simp only [visOkB] at hv
      obtain ⟨ps, rfl⟩ := isIdentStr_inv hv
      simp only [List.cons_append, List.nil_append]
      simp only [stepVariant, parseAttrs_flat attrs pubKw ps (.ident n s :: R) ha,
        parseVis_pub hv]
    · simp only [visOkB, Bool.and_eq_true] at hv
      obtain ⟨ps, rfl⟩ := isIdentStr_inv hv.1
      simp only [List.cons_append, List.nil_append]
      simp only [stepVariant, parseAttrs_flat attrs pubKw ps (g :: .ident n s :: R) ha,
        parseVis_pubGroup hv.1 hv.2]
    · simp only [visOkB, Bool.false_eq_true] at hv
  have hflat : flattenSVariant ⟨attrs, vis, .ident n s, shape, disc, trailing⟩ ++ tail
      = attrToks attrs ++ (vis ++ (.ident n s
          :: (shape.toTokens ++ (disc.toTokens ++ (trailingToks trailing ++ tail))))) := by
    simp [flattenSVariant]
  rw [hflat, hmain]
  clear hmain hflat hn
  cases shape with
  | unit =>
      cases disc with
      | eq e tk =>
          simp only [discOkB] at hd
          obtain ⟨esp, es2, rfl⟩ := isPunct_inv hd
          simp only [SShape.toTokens, SDisc.toTokens, List.nil_append, List.cons_append,
            List.singleton_append]
          simp only [stepAfterIdent, isEqTok_eqPunct, if_true, extract_string_cons]
          cases hA : templateOutcome tk with
          | ok pr =>
              obtain ⟨l, ex⟩ := pr
              cases trailing with
              | none =>
                  simp only [trailingToks, List.nil_append, armOfExtraction,
                    takeTrailingComma_none htail]
                  simp [SVariant.isUnitLast, SVariant.cleanToks, SVariant.arm, SVariant.errs,
                    SVariant.docToks, SVariant.extraction, SVariant.destructure,
                    SVariant.identName, hA, SShape.toTokens, trailingToks]
              | some c =>
                  simp only [trailingOkB] at ht
                  simp only [trailingToks, List.singleton_append, armOfExtraction,
                    takeTrailingComma_comma ht]
                  simp [SVariant.isUnitLast, SVariant.cleanToks, SVariant.arm, SVariant.errs,
                    SVariant.docToks, SVariant.extraction, SVariant.destructure,
                    SVariant.identName, hA, SShape.toTokens, trailingToks]
          | error er =>
              cases trailing with
              | none =>
                  simp only [trailingToks, List.nil_append, armOfExtraction,
                    takeTrailingComma_none htail]
                  simp [SVariant.isUnitLast, SVariant.cleanToks, SVariant.arm, SVariant.errs,
                    SVariant.docToks, SVariant.extraction, SVariant.destructure,
                    SVariant.identName, hA, SShape.toTokens, trailingToks]
              | some c =>
                  simp only [trailingOkB] at ht
                  simp only [trailingToks, List.singleton_append, armOfExtraction,
                    takeTrailingComma_comma ht]
                  simp [SVariant.isUnitLast, SVariant.cleanToks, SVariant.arm, SVariant.errs,
                    SVariant.docToks, SVariant.extraction, SVariant.destructure,
                    SVariant.identName, hA, SShape.toTokens, trailingToks]
      | missingComma c =>
          simp only [discOkB, Bool.and_eq_true, Option.isNone_iff_eq_none] at hd
          obtain ⟨hc, rfl⟩ := hd
          obtain ⟨csp, cs2, rfl⟩ := isPunct_inv hc
          simp only [SShape.toTokens, SDisc.toTokens, trailingToks, List.nil_append,
            List.cons_append, List.singleton_append, List.append_nil]
          simp only [stepAfterIdent, isEqTok_commaPunct, isCommaTok_commaPunct,
            Bool.false_eq_true, if_false, if_true]
          simp [SVariant.isUnitLast, SVariant.cleanToks, SVariant.arm, SVariant.errs,
            SVariant.docToks, SVariant.extraction, SVariant.destructure, SVariant.identName,
            SVariant.identSpan, SShape.toTokens, trailingToks]
      | lastNone =>
          simp only [discOkB, Bool.and_eq_true, Option.isNone_iff_eq_none,
            List.isEmpty_iff] at hd
          obtain ⟨rfl, rfl⟩ := hd
          simp only [SShape.toTokens, SDisc.toTokens, trailingToks, List.nil_append,
            List.append_nil]
          simp only [stepAfterIdent]
          simp [SVariant.isUnitLast, SVariant.cleanToks, SVariant.arm, SVariant.errs,
            SVariant.extraction, SVariant.destructure, SVariant.identName, SVariant.identSpan]
  | pos f gs =>
      simp only [SShape.toTokens, List.cons_append, List.singleton_append, List.nil_append]
      simp only [stepAfterIdent]
      cases disc with
      | eq e tk =>
          simp only [discOkB] at hd
          simp only [SDisc.toTokens, List.cons_append, List.singleton_append, List.nil_append]
          rw [finishShaped_eq hd doc _ _ _ _ _ _ _ tk trailing ht tail htail]
          cases hA : templateOutcome tk with
          | ok pr =>
              obtain ⟨l, ex⟩ := pr
              simp [armOfExtraction, SVariant.isUnitLast, SVariant.cleanToks, SVariant.arm,
                SVariant.errs, SVariant.docToks, SVariant.extraction, SVariant.destructure,
                SVariant.identName, hA, SShape.toTokens]
          | error er =>
              simp [armOfExtraction, SVariant.isUnitLast, SVariant.cleanToks, SVariant.arm,
                SVariant.errs, SVariant.docToks, SVariant.extraction, SVariant.destructure,
                SVariant.identName, hA, SShape.toTokens]
      | missingComma c =>
          simp only [discOkB, Bool.and_eq_true, Option.isNone_iff_eq_none] at hd
          obtain ⟨hc, rfl⟩ := hd
          simp only [SDisc.toTokens, trailingToks, List.cons_append, List.singleton_append,
            List.nil_append, List.append_nil]
          rw [finishShaped_noEq (isCommaTok_isEqTok hc) doc _ _ _ _ _ _ _ tail htail]
          simp [SVariant.isUnitLast, SVariant.cleanToks, SVariant.arm, SVariant.errs,
            SVariant.docToks, SVariant.extraction, SVariant.destructure, SVariant.identName,
            SVariant.identSpan, SShape.toTokens, trailingToks]
      | lastNone =>
          simp only [discOkB, Bool.and_eq_true, Option.isNone_iff_eq_none,
            List.isEmpty_iff] at hd
          obtain ⟨rfl, rfl⟩ := hd
          simp only [SDisc.toTokens, trailingToks, List.nil_append, List.append_nil]
          rw [finishShaped_nil]
          simp [SVariant.isUnitLast, SVariant.cleanToks, SVariant.arm, SVariant.errs,
            SVariant.docToks, SVariant.extraction, SVariant.destructure, SVariant.identName,
            SVariant.identSpan, SShape.toTokens, trailingToks]
  | named f gs =>
      simp only [SShape.toTokens, List.cons_append, List.singleton_append, List.nil_append]
      simp only [stepAfterIdent]
      cases disc with
      | eq e tk =>
          simp only [discOkB] at hd
          simp only [SDisc.toTokens, List.cons_append, List.singleton_append, List.nil_append]
          rw [finishShaped_eq hd doc _ _ _ _ _ _ _ tk trailing ht tail htail]
          cases hA : templateOutcome tk with
          | ok pr =>
              obtain ⟨l, ex⟩ := pr
              simp [armOfExtraction, SVariant.isUnitLast, SVariant.cleanToks, SVariant.arm,
                SVariant.errs, SVariant.docToks, SVariant.extraction, SVariant.destructure,
                SVariant.identName, hA, SShape.toTokens]
          | error er =>
              simp [armOfExtraction, SVariant.isUnitLast, SVariant.cleanToks, SVariant.arm,
                SVariant.errs, SVariant.docToks, SVariant.extraction, SVariant.destructure,
                SVariant.identName, hA, SShape.toTokens]
      | missingComma c =>
          simp only [discOkB, Bool.and_eq_true, Option.isNone_iff_eq_none] at hd
          obtain ⟨hc, rfl⟩ := hd
          simp only [SDisc.toTokens, trailingToks, List.cons_append, List.singleton_append,
            List.nil_append, List.append_nil]
          rw [finishShaped_noEq (isCommaTok_isEqTok hc) doc _ _ _ _ _ _ _ tail htail]
          simp [SVariant.isUnitLast, SVariant.cleanToks, SVariant.arm, SVariant.errs,
            SVariant.docToks, SVariant.extraction, SVariant.destructure, SVariant.identName,
            SVariant.identSpan, SShape.toTokens, trailingToks]
      | lastNone =>
          simp only [discOkB, Bool.and_eq_true, Option.isNone_iff_eq_none,
            List.isEmpty_iff] at hd
          obtain ⟨rfl, rfl⟩ := hd
          simp only [SDisc.toTokens, trailingToks, List.nil_append, List.append_nil]
          rw [finishShaped_nil]
          simp [SVariant.isUnitLast, SVariant.cleanToks, SVariant.arm, SVariant.errs,
            SVariant.docToks, SVariant.extraction, SVariant.destructure, SVariant.identName,
            SVariant.identSpan, SShape.toTokens, trailingToks]

theorem isCommaTok_poundPunct (sp : TokSpacing) (s : Nat) :
    isCommaTok (.punct '#' sp s) = false := rfl

theorem isCommaTok_ident (n : String) (s : Nat) : isCommaTok (.ident n s) = false := rfl

theorem flattenSVariant_length_pos (v : SVariant) : 0 < (flattenSVariant v).length := by
  obtain ⟨a, vi, nt, sh, d, tr⟩ := v
  simp only [flattenSVariant, List.length_append, List.length_cons, List.length_singleton]
  omega

/-- A flattened well-formed variant never begins with a comma: it begins
with `#`, with `pub`, or with the variant identifier. -/
theorem headNotComma_flatten (v : SVariant) (b : Bool) (h : svariantOkB v b = true)
    (X : List TokenTree) : headNotComma (flattenSVariant v ++ X) = true := by
  obtain ⟨attrs, vis, nameTok, shape, disc, trailing⟩ := v
  simp only [svariantOkB, Bool.and_eq_true] at h
  obtain ⟨⟨⟨⟨ha, hv⟩, hn⟩, _⟩, _⟩ := h
  obtain ⟨n, s, hnp, rfl⟩ := nameOkB_inv hn
  rcases attrs with _ | ⟨p, arest⟩
  · rcases vis with _ | ⟨q, _ | ⟨g, _ | ⟨x, vrest⟩⟩⟩
    · simp [flattenSVariant, attrToks, headNotComma, isCommaTok_ident]
    · simp only [visOkB] at hv
      obtain ⟨qs, rfl⟩ := isIdentStr_inv hv
      simp [flattenSVariant, attrToks, headNotComma, isCommaTok_ident]
    · simp only [visOkB, Bool.and_eq_true] at hv
      obtain ⟨qs, rfl⟩ := isIdentStr_inv hv.1
      simp [flattenSVariant, attrToks, headNotComma, isCommaTok_ident]
    · simp only [visOkB, Bool.false_eq_true] at hv
  · simp only [List.all_cons, Bool.and_eq_true] at ha
    obtain ⟨psp, pss, hp⟩ := isPunct_inv ha.1
    simp [flattenSVariant, attrToks, headNotComma, hp, isCommaTok_poundPunct]

theorem flattenSVariants_isEmpty (vs : List SVariant) :
    (flattenSVariants vs).isEmpty = vs.isEmpty := by
  cases vs with
  | nil => rfl
  | cons w ws =>
      have hne : flattenSVariants (w :: ws) ≠ [] := by
        have hp := flattenSVariant_length_pos w
        simp only [flattenSVariants, List.flatMap_cons]
        intro hcontra
        have := congrArg List.length hcontra
        simp only [List.length_append, List.length_nil] at this
        omega
      rw [show (w :: ws : List SVariant).isEmpty = false from rfl, Bool.eq_false_iff]
      simp [List.isEmpty_iff, hne]

/-- The variant loop on a flattened well-formed variant list (with enough
fuel) succeeds and produces the concatenation, in declaration order, of
each variant's cleaned tokens, of each variant's single arm, and of each
variant's diagnostics. -/
theorem parseVariantsF_flatten (doc : Bool) (vs : List SVariant) :
    ∀ fuel : Nat, svariantsOkB vs = true → (flattenSVariants vs).length ≤ fuel →
      parseVariantsF doc fuel (flattenSVariants vs) =
        .ok (vs.flatMap (fun v => v.cleanToks doc),
             vs.flatMap SVariant.arm,
             vs.flatMap SVariant.errs) := by
  induction vs with
  | nil =>
      intro fuel _ _
      simp [flattenSVariants, parseVariantsF]
  | cons v rest ih =>
      intro fuel hok hfuel
      simp only [svariantsOkB, Bool.and_eq_true] at hok
      obtain ⟨hv, hrest⟩ := hok
      have hcons : ∃ t ts, flattenSVariants (v :: rest) = t :: ts := by
        cases hF : flattenSVariants (v :: rest) with
        | nil =>
            have hp := flattenSVariant_length_pos v
            have := congrArg List.length hF
            simp only [flattenSVariants, List.flatMap_cons, List.length_append,
              List.length_nil] at this
            omega
        | cons t ts => exact ⟨t, ts, rfl⟩
      obtain ⟨t, ts, hF⟩ := hcons
      have hlen : 0 < (flattenSVariants (v :: rest)).length := by rw [hF]; simp
      cases fuel with
      | zero => exact absurd (Nat.le_trans hlen hfuel) (by omega)
      | succ f =>
          have hsplit : flattenSVariants (v :: rest)
              = flattenSVariant v ++ flattenSVariants rest := by
            simp [flattenSVariants]
          have hvOk : svariantOkB v (flattenSVariants rest).isEmpty = true := by
            rw [flattenSVariants_isEmpty]; exact hv
          have hnc : headNotComma (flattenSVariants rest) = true := by
            cases rest with
            | nil => rfl
            | cons w ws =>
                simp only [flattenSVariants, List.flatMap_cons]
                exact headNotComma_flatten w ws.isEmpty
                  (by simp only [svariantsOkB, Bool.and_eq_true] at hrest; exact hrest.1) _
          have hstep := stepVariant_flatten doc v (flattenSVariants rest) hvOk hnc
          rw [hsplit] at hfuel
          rw [hF]
          simp only [parseVariantsF]
          rw [← hF, hsplit, hstep]
          cases hUL : v.isUnitLast with
          | true =>
              -- degenerate last unit variant: the loop breaks; well-formedness
              -- forces `rest = []`
              have hrestnil : rest = [] := by
                obtain ⟨attrs, vis, nameTok, shape, disc, trailing⟩ := v
                cases shape <;> cases disc <;>
                  simp only [SVariant.isUnitLast, Bool.false_eq_true] at hUL
                simp only [svariantOkB, discOkB, Bool.and_eq_true, List.isEmpty_iff] at hv
                exact hv.1.2.1
              subst hrestnil
              simp [hUL, flattenSVariants, parseVariantsF]
          | false =>
              simp only [hUL, Bool.false_eq_true, if_false]
              have hfrest : (flattenSVariants rest).length ≤ f := by
                have hp := flattenSVariant_length_pos v
                simp only [List.length_append] at hfuel
                omega
              rw [ih f hrest hfrest]
              simp [List.flatMap_cons]

/-! ## Claim C1: the cleaned variant list -/

/-- Spec-side definition (from the claim's words): one variant of the input
with only the `= template` suffix removed — attributes, visibility,
identifier, field group and trailing comma kept token-for-token. -/
def strippedSVariant (v : SVariant) : List TokenTree :=
  attrToks v.attrs ++ v.vis ++ [v.nameTok] ++ v.shape.toTokens ++ trailingToks v.trailing

/-- Spec-side definition: the input variant list with each variant's
`= template` suffix removed. -/
def strippedSVariants (vs : List SVariant) : List TokenTree :=
  vs.flatMap strippedSVariant

/-- A well-formed template token after `=`: a literal, or a parenthesized
group whose first interior token is a literal. -/
def goodTemplateTok : TokenTree → Bool
  | .lit _ => true
  | .group .paren (x :: _) _ => x.isLit
  | _ => false

/-- A variant has a well-formed template: a `=` discriminant whose token is
a well-formed template token. -/
def hasGoodTemplate (v : SVariant) : Bool :=
  match v.disc with
  | .eq _ t => goodTemplateTok t
  | _ => false

theorem goodTemplateTok_outcome {t : TokenTree} (h : goodTemplateTok t = true) :
    ∃ l ex, templateOutcome t = .ok (l, ex) := by
  cases t with
  | lit l => exact ⟨l, [], rfl⟩
  | ident n s => simp [goodTemplateTok] at h
  | punct c sp s => simp [goodTemplateTok] at h
  | group d g gs =>
      cases d with
      | paren =>
          cases g with
          | nil => simp [goodTemplateTok] at h
          | cons x more =>
              simp only [goodTemplateTok] at h
              cases x <;> simp only [TokenTree.isLit, Bool.false_eq_true] at h
              next l => exact ⟨l, more, rfl⟩
      | brace => simp [goodTemplateTok] at h
      | bracket => simp [goodTemplateTok] at h

theorem extraction_good {v : SVariant} (h : hasGoodTemplate v = true) :
    ∃ l ex, v.extraction = .ok (l, ex) := by
  obtain ⟨attrs, vis, nameTok, shape, disc, trailing⟩ := v
  cases disc with
  | eq e tk =>
      simp only [hasGoodTemplate] at h
      obtain ⟨l, ex, hout⟩ := goodTemplateTok_outcome h
      exact ⟨l, ex, by simp [SVariant.extraction, hout]⟩
  | missingComma c => simp [hasGoodTemplate] at h
  | lastNone => simp [hasGoodTemplate] at h

theorem cleanToks_false_good {v : SVariant} (h : hasGoodTemplate v = true) :
    v.cleanToks false = strippedSVariant v := by
  obtain ⟨l, ex, hE⟩ := extraction_good h
  obtain ⟨attrs, vis, nameTok, shape, disc, trailing⟩ := v
  cases disc with
  | eq e tk =>
      cases shape <;>
        simp [SVariant.cleanToks, SVariant.docToks, hE, strippedSVariant, SShape.toTokens]
  | missingComma c => simp [hasGoodTemplate] at h
  | lastNone => simp [hasGoodTemplate] at h

theorem errs_good {v : SVariant} (h : hasGoodTemplate v = true) : v.errs = [] := by
  obtain ⟨l, ex, hE⟩ := extraction_good h
  simp [SVariant.errs, hE]

theorem flatMap_clean_stripped (vs : List SVariant)
    (hg : vs.all hasGoodTemplate = true) :
    vs.flatMap (fun v => v.cleanToks false) = strippedSVariants vs := by
  induction vs with
  | nil => rfl
  | cons v rest ih =>
      simp only [List.all_cons, Bool.and_eq_true] at hg
      simp only [List.flatMap_cons, strippedSVariants, cleanToks_false_good hg.1]
      simp only [strippedSVariants] at ih
      rw [ih hg.2]

theorem flatMap_errs_nil (vs : List SVariant) (hg : vs.all hasGoodTemplate = true) :
    vs.flatMap SVariant.errs = [] := by
  induction vs with
  | nil => rfl
  | cons v rest ih =>
      simp only [List.all_cons, Bool.and_eq_true] at hg
      simp only [List.flatMap_cons, errs_good hg.1, List.nil_append]
      exact ih hg.2

/-- C1.  For every input declaration (minimal header `enum Name`, body the
flattened well-formed variant list) in which every variant has a
well-formed template, the pipeline succeeds and the cleaned variant list it
emits is token-for-token the input's variant list with only the
`= template` suffix of each variant removed (`strippedSVariants`, written
from the claim's words): no token reordered, no variant attribute,
visibility qualifier, identifier or field group lost or altered.  The
match arms are one per variant in order and no diagnostic is produced. -/
theorem c1_cleaned_variant_list (ename : String) (s0 es bs : Nat) (vs : List SVariant)
    (hok : svariantsOkB vs = true) (hg : vs.all hasGoodTemplate = true) :
    displayParts []
        [.ident enumKw s0, .ident ename es, .group .brace (flattenSVariants vs) bs]
      = .ok (.success
          { headerOut := [.ident enumKw s0]
            enumIdent := .ident ename es
            generics := []
            whereClause := []
            variants := strippedSVariants vs
            arms := vs.flatMap SVariant.arm
            errors := []
            docFlag := false }) := by
  have hrun : parseVariantsRun false (flattenSVariants vs) =
      .ok (strippedSVariants vs, vs.flatMap SVariant.arm, []) := by
    rw [parseVariantsRun, parseVariantsF_flatten false vs _ hok (le_refl _),
      flatMap_clean_stripped vs hg, flatMap_errs_nil vs hg]
  simp [displayParts, parseArgs, skipToEnum, TokenTree.isIdentStr, enumKw, isLtTok,
    TokenTree.isPunct, TokenTree.isGroupDelim, whereKw, hrun]

/-! ## Claim C2: one arm per variant, never aborting -/

/-- C2.  For every well-formed variant body, the variant loop runs to
completion (diagnostics never abort it) and its arm stream is the
concatenation, in declaration order, of exactly one `generate_arm` per
variant; a variant whose template extraction failed gets the default
empty-string template with no extra arguments. -/
theorem c2_one_arm_per_variant (doc : Bool) (vs : List SVariant)
    (hok : svariantsOkB vs = true) :
    parseVariantsRun doc (flattenSVariants vs)
      = .ok (vs.flatMap (fun v => v.cleanToks doc), vs.flatMap SVariant.arm,
             vs.flatMap SVariant.errs)
    ∧ (∀ v ∈ vs, ∃ l ex, v.arm = generate_arm v.identName v.destructure l ex)
    ∧ (∀ v ∈ vs, v.extractionFailed = true →
        v.arm = generate_arm v.identName v.destructure (Lit.string "") []) := by
  refine ⟨parseVariantsF_flatten doc vs _ hok (le_refl _), ?_, ?_⟩
  · intro v _
    cases hE : v.extraction with
    | ok pr => exact ⟨pr.1, pr.2, by simp [SVariant.arm, hE]⟩
    | error e => exact ⟨Lit.string "", [], by simp [SVariant.arm, hE]⟩
  · intro v _ hfail
    cases hE : v.extraction with
    | ok pr =>
        simp only [SVariant.extractionFailed, hE, Bool.false_eq_true] at hfail
    | error e => simp [SVariant.arm, hE]

/-- A concrete three-variant body for the C1 witness: an attributed unit
variant, a `pub` tuple variant with a tuple template and trailing commas,
and a struct variant. -/
def c1vs : List SVariant :=
  [ ⟨[(.punct '#' .alone 10, .group .bracket [.ident "cfg" 11] 12)], [],
      .ident "A" 13, .unit, .eq (.punct '=' .alone 14) (.lit ⟨"\"a\"", 15⟩),
      some (.punct ',' .alone 16)⟩,
    ⟨[], [.ident pubKw 17], .ident "B" 18,
      .pos [.ident "u8" 19, .punct ',' .alone 20] 21,
      .eq (.punct '=' .alone 22)
        (.group .paren [.lit ⟨"\"b\"", 23⟩, .punct ',' .alone 24, .ident "_0" 25] 26),
      some (.punct ',' .alone 27)⟩,
    ⟨[], [], .ident "C" 28,
      .named [.ident "x" 29, .punct ':' .alone 30, .ident "u8" 31] 32,
      .eq (.punct '=' .alone 33) (.lit ⟨"\"c\"", 34⟩), none⟩ ]

theorem c1_cleaned_variant_list_witness :
    svariantsOkB c1vs = true ∧ c1vs.all hasGoodTemplate = true ∧
    displayParts []
        [.ident enumKw 1, .ident "E" 2, .group .brace (flattenSVariants c1vs) 3]
      = .ok (.success
          { headerOut := [.ident enumKw 1]
            enumIdent := .ident "E" 2
            generics := []
            whereClause := []
            variants := strippedSVariants c1vs
            arms := c1vs.flatMap SVariant.arm
            errors := []
            docFlag := false }) :=
  ⟨rfl, rfl, c1_cleaned_variant_list "E" 1 2 3 c1vs rfl rfl⟩

/-- A concrete body for the C2 witness: a tuple variant with no
discriminant (extraction fails) followed by a well-formed unit variant. -/
def c2vs : List SVariant :=
  [ ⟨[], [], .ident "A" 1, .pos [.ident "u8" 2] 3,
      .missingComma (.punct ',' .alone 4), none⟩,
    ⟨[], [], .ident "B" 5, .unit,
      .eq (.punct '=' .alone 6) (.lit ⟨"\"x\"", 7⟩), none⟩ ]

theorem c2_one_arm_per_variant_witness :
    svariantsOkB c2vs = true ∧
    parseVariantsRun true (flattenSVariants c2vs)
      = .ok (c2vs.flatMap (fun v => v.cleanToks true), c2vs.flatMap SVariant.arm,
             c2vs.flatMap SVariant.errs) :=
  ⟨rfl, (c2_one_arm_per_variant true c2vs rfl).1⟩

/-! ## Claim C3: named-field destructuring -/

/-- Running check that a type's token sequence never trips the named-field
scan: walking its tokens as peeks with the `is_inside_type` flag starting
at `flag`, no token is a colon peeked while the flag is off. -/
def tyOk : List TokenTree → Bool → Bool
  | [], _ => true
  | p :: rest, flag =>
      if isColonTok p && !flag then false
      else tyOk rest (if isCommaTok p && flag then false else flag)

/-- No colon token anywhere. -/
def noColonTok (l : List TokenTree) : Bool := l.all fun t => !isColonTok t

/-- Spec-side well-formedness of a field's type (from the claim's words):
at the top token level of the type, no colon occurs after a comma — nested
constraint regions such as `for<T: Bar>` may hold colons, but once a
top-level comma has been seen (e.g. inside `Foo<A, B>`) no further
top-level colon may follow. -/
def noColonAfterComma : List TokenTree → Bool
  | [] => true
  | t :: rest => if isCommaTok t then noColonTok rest else noColonAfterComma rest

theorem noColonTok_tyOk (l : List TokenTree) : noColonTok l = true → tyOk l false = true := by
  induction l with
  | nil => intro; rfl
  | cons t rest ih =>
      intro h
      simp only [noColonTok, List.all_cons, Bool.and_eq_true, Bool.not_eq_true'] at h
      simp only [tyOk, h.1, Bool.false_and, Bool.and_false, Bool.false_eq_true, if_false]
      exact ih (by simp only [noColonTok]; exact h.2)

theorem noColonAfterComma_tyOk (l : List TokenTree) :
    noColonAfterComma l = true → tyOk l true = true := by
  induction l with
  | nil => intro; rfl
  | cons t rest ih =>
      intro h
      simp only [noColonAfterComma] at h
      cases hc : isCommaTok t with
      | true =>
          simp only [hc, eq_self_iff_true, if_true] at h
          have hcolon : isColonTok t = false := by
            obtain ⟨sp, s, rfl⟩ := isPunct_inv hc
            rfl
          simp only [tyOk, hcolon, Bool.false_and, Bool.false_eq_true, if_false, hc,
            Bool.and_self, if_true]
          exact noColonTok_tyOk rest h
      | false =>
          simp only [hc, Bool.false_eq_true, if_false] at h
          cases hcolon : isColonTok t with
          | true =>
              simp only [tyOk, hcolon, Bool.true_and, Bool.not_true, Bool.false_eq_true,
                if_false, hc, Bool.false_and, if_true]
              exact ih h
          | false =>
              simp only [tyOk, hcolon, Bool.false_and, Bool.false_eq_true, if_false, hc,
                if_true]
              exact ih h

theorem isCommaTok_isColonTok {c : TokenTree} (h : isCommaTok c = true) :
    isColonTok c = false := by
  obtain ⟨sp, s, rfl⟩ := isPunct_inv h
  rfl

/-- Walking the scan across a type region whose peeks satisfy `tyOk`:
no field name is emitted, and on reaching a separating comma the
`is_inside_type` flag is off; if the stream instead ends inside the type
region, nothing more is emitted. -/
theorem namedScan_skip (l : List TokenTree) : ∀ (c : TokenTree) (flag : Bool),
    tyOk l flag = true →
      (∀ sep tail, isCommaTok sep = true →
          namedScan (c :: l ++ sep :: tail) flag = namedScan (sep :: tail) false)
      ∧ namedScan (c :: l) flag = [] := by
  induction l with
  | nil =>
      intro c flag _
      refine ⟨?_, rfl⟩
      intro sep tail hsep
      have hcolon := isCommaTok_isColonTok hsep
      cases flag <;>
        simp [namedScan, hcolon, hsep]
  | cons p l2 ih =>
      intro c flag hok
      simp only [tyOk] at hok
      cases hcp : isColonTok p with
      | true =>
          cases flag with
          | false => rw [hcp] at hok; simp at hok
          | true =>
              rw [hcp] at hok
              simp only [Bool.true_and, Bool.not_true, Bool.false_eq_true, if_false] at hok
              have hcm : isCommaTok p = false := by
                obtain ⟨sp, s, rfl⟩ := isPunct_inv hcp
                rfl
              rw [hcm] at hok
              simp only [Bool.false_and, Bool.false_eq_true, if_false] at hok
              have ihp := ih p true hok
              constructor
              · intro sep tail hsep
                simp only [List.cons_append]
                simp only [namedScan, hcp, Bool.not_true]
                simp only [hcm, Bool.false_eq_true, if_false, eq_self_iff_true, if_true]
                exact ihp.1 sep tail hsep
              · simp only [namedScan, hcp, Bool.not_true]
                simp only [hcm, Bool.false_eq_true, if_false, eq_self_iff_true, if_true]
                exact ihp.2
      | false =>
          rw [hcp] at hok
          simp only [Bool.false_and, Bool.false_eq_true, if_false] at hok
          -- the flag after processing peek `p`
          have ihp := ih p (if isCommaTok p && flag then false else flag) hok
          constructor
          · intro sep tail hsep
            simp only [List.cons_append]
            rw [show namedScan (c :: p :: (l2 ++ sep :: tail)) flag
                = namedScan (p :: (l2 ++ sep :: tail))
                    (if isCommaTok p && flag then false else flag) by
              cases hcm : isCommaTok p <;> cases flag <;>
                simp [namedScan, hcp, hcm]]
            exact ihp.1 sep tail hsep
          · rw [show namedScan (c :: p :: l2) flag
                = namedScan (p :: l2) (if isCommaTok p && flag then false else flag) by
              cases hcm : isCommaTok p <;> cases flag <;>
                simp [namedScan, hcp, hcm]]
            exact ihp.2

/-- One named field of a struct variant: its name, the name token's span,
and its type's token sequence. -/
structure NField where
  name : String
  span : Nat
  ty : List TokenTree

/-- The interior token stream of a brace-delimited field group:
`name : ty` fields separated by commas, with an optional trailing comma. -/
def flattenNFields : List NField → Bool → List TokenTree
  | [], _ => []
  | [f], trailing =>
      .ident f.name f.span :: .punct ':' .alone 0
        :: (f.ty ++ if trailing then [.punct ',' .alone 0] else [])
  | f :: rest, trailing =>
      .ident f.name f.span :: .punct ':' .alone 0
        :: (f.ty ++ .punct ',' .alone 0 :: flattenNFields rest trailing)

theorem flattenNFields_head (f : NField) (rest : List NField) (trailing : Bool) :
    ∃ X, flattenNFields (f :: rest) trailing
      = .ident f.name f.span :: .punct ':' .alone 0 :: X := by
  cases rest with
  | nil => exact ⟨_, rfl⟩
  | cons g gs => exact ⟨_, rfl⟩

theorem namedScan_field_start (n : String) (sp : Nat) (csp : TokSpacing) (cs : Nat)
    (rest : List TokenTree) :
    namedScan (.ident n sp :: .punct ':' csp cs :: rest) false
      = .ident n sp :: .punct ',' .joint 0 :: namedScan (.punct ':' csp cs :: rest) true := by
  simp [namedScan, isColonTok, TokenTree.isPunct]

theorem namedScan_comma_ident (csp : TokSpacing) (cs : Nat) (n : String) (sp : Nat)
    (X : List TokenTree) :
    namedScan (.punct ',' csp cs :: .ident n sp :: X) false
      = namedScan (.ident n sp :: X) false := by
  simp [namedScan, isColonTok, isCommaTok, TokenTree.isPunct]

/-- C3.  For every brace-delimited field group whose fields' types have no
top-level colon after a top-level comma (nested constraint colons such as
`for<T: Bar> Foo<T>` are allowed — `noColonAfterComma` only forbids a
colon once a top-level comma has been passed), the named-field scan emits
exactly the declared field names, as their original identifier tokens in
declaration order, each followed by the joint comma the code inserts — so
the identifiers bound in the generated arm's destructuring pattern are
exactly the declared field names, in order, whether or not a trailing
comma is present. -/
theorem c3_named_destructure (fields : List NField) (trailing : Bool)
    (hty : fields.all (fun f => noColonAfterComma f.ty) = true) :
    namedScan (flattenNFields fields trailing) false =
      fields.flatMap (fun f => [.ident f.name f.span, .punct ',' .joint 0]) := by
  induction fields with
  | nil => cases trailing <;> rfl
  | cons f rest ih =>
      simp only [List.all_cons, Bool.and_eq_true] at hty
      have hok := noColonAfterComma_tyOk f.ty hty.1
      have hskip := namedScan_skip f.ty (.punct ':' .alone 0) true hok
      cases rest with
      | nil =>
          cases trailing with
          | true =>
              have h1 : flattenNFields [f] true
                  = .ident f.name f.span :: .punct ':' .alone 0
                      :: (f.ty ++ [.punct ',' .alone 0]) := by
                simp [flattenNFields]
              rw [h1, namedScan_field_start, ← List.cons_append,
                hskip.1 (.punct ',' .alone 0) [] rfl]
              rfl
          | false =>
              have h1 : flattenNFields [f] false
                  = .ident f.name f.span :: .punct ':' .alone 0 :: f.ty := by
                simp [flattenNFields]
              rw [h1, namedScan_field_start, hskip.2]
              rfl
      | cons g gs =>
          obtain ⟨X, hX⟩ := flattenNFields_head g gs trailing
          have h1 : flattenNFields (f :: g :: gs) trailing
              = .ident f.name f.span :: .punct ':' .alone 0
                  :: (f.ty ++ .punct ',' .alone 0 :: flattenNFields (g :: gs) trailing) := rfl
          rw [h1, namedScan_field_start, ← List.cons_append,
            hskip.1 (.punct ',' .alone 0) (flattenNFields (g :: gs) trailing) rfl]
          rw [hX, namedScan_comma_ident, ← hX, ih hty.2]
          simp

/-- C3 witness data: a field typed `for<T: Bar> Foo<T>` (a colon inside a
nested constraint region) followed by a second field. -/
def c3fields : List NField :=
  [ ⟨"x", 1, [.ident "for" 2, .punct '<' .alone 3, .ident "T" 4, .punct ':' .alone 5,
      .ident "Bar" 6, .punct '>' .alone 7, .ident "Foo" 8, .punct '<' .alone 9,
      .ident "T" 10, .punct '>' .alone 11]⟩,
    ⟨"y", 12, [.ident "u8" 13]⟩ ]

theorem c3_named_destructure_witness :
    (c3fields.all fun f => noColonAfterComma f.ty) = true ∧
    namedScan (flattenNFields c3fields true) false =
      c3fields.flatMap (fun f => [.ident f.name f.span, .punct ',' .joint 0]) :=
  ⟨rfl, c3_named_destructure c3fields true rfl⟩

/-! ## Claim C4: positional field count -/

/-- Spec-side definition (from the claim's words): the field count of a
parenthesized group is `0` when the group is empty and otherwise one plus
the number of interior comma separators not immediately followed by the
group's end — that is, the commas among all but the last token. -/
def specPosCount (g : List TokenTree) : Nat :=
  if g.isEmpty then 0 else 1 + (g.dropLast.filter isCommaTok).length

/-- The identifier names occurring in a token list, in order. -/
def identNamesOf (l : List TokenTree) : List String :=
  l.filterMap fun t =>
    match t with
    | .ident n _ => some n
    | _ => none

theorem countCommas_eq_dropLast (g : List TokenTree) :
    countCommas g = (g.dropLast.filter isCommaTok).length := by
  induction g with
  | nil => rfl
  | cons t rest ih =>
      cases rest with
      | nil => cases h : isCommaTok t <;> simp [countCommas, h]
      | cons u rest2 =>
          have hc : countCommas (t :: u :: rest2)
              = (if isCommaTok t then 1 else 0) + countCommas (u :: rest2) := by
            simp [countCommas]
          rw [hc, show (t :: u :: rest2 : List TokenTree).dropLast
              = t :: (u :: rest2).dropLast from rfl, List.filter_cons]
          cases h : isCommaTok t <;> simp [h, ih, Nat.add_comm]

theorem identNamesOf_flatMap (l : List Nat) (f : Nat → String) :
    identNamesOf (l.flatMap fun i => [.ident (f i) 0, .punct ',' .joint 0]) = l.map f := by
  induction l with
  | nil => rfl
  | cons i l2 ih =>
      simp only [List.flatMap_cons, identNamesOf, List.filterMap_append, List.map_cons]
      simp only [identNamesOf] at ih
      rw [ih]
      rfl

theorem countCommas_trailing (g : List TokenTree) (t c : TokenTree)
    (ht : isCommaTok t = false) :
    countCommas (g ++ [t]) = countCommas (g ++ [t, c]) := by
  rw [countCommas_eq_dropLast, countCommas_eq_dropLast]
  have h1 : (g ++ [t]).dropLast = g := by simp
  have h2 : (g ++ [t, c]).dropLast = g ++ [t] := by
    rw [show g ++ [t, c] = (g ++ [t]) ++ [c] by simp]
    simp
  rw [h1, h2, List.filter_append]
  simp [ht]

/-- C4.  The computed positional field count equals the claim's count
(`0` for an empty group, else one plus the interior commas not immediately
followed by the group's end); the destructure built from it binds exactly
that many identifiers `_0`, `_1`, ... in left-to-right order; and a
trailing comma never changes the count (in particular `Variant(T)` and
`Variant(T,)` get the same count `1`). -/
theorem c4_positional_count :
    (∀ g : List TokenTree, variantCount g = specPosCount g)
    ∧ (∀ g : List TokenTree,
        identNamesOf (posBindings (variantCount g))
          = (List.range (variantCount g)).map fun i => String.mk ['_'] ++ toString i)
    ∧ (∀ (g : List TokenTree) (t c : TokenTree),
        isCommaTok t = false → isCommaTok c = true →
          variantCount (g ++ [t]) = variantCount (g ++ [t, c])) := by
  refine ⟨?_, ?_, ?_⟩
  · intro g
    simp [variantCount, specPosCount, countCommas_eq_dropLast]
  · intro g
    exact identNamesOf_flatMap (List.range (variantCount g)) _
  · intro g t c ht _
    have h1 : ((g ++ [t]).isEmpty = false) := by cases g <;> simp
    have h2 : ((g ++ [t, c]).isEmpty = false) := by cases g <;> simp
    simp only [variantCount, h1, h2, countCommas_trailing g t c ht, if_false]

theorem c4_positional_count_witness :
    variantCount [TokenTree.ident "T" 1] = specPosCount [TokenTree.ident "T" 1]
    ∧ variantCount ([] ++ [TokenTree.ident "T" 1])
        = variantCount ([] ++ [TokenTree.ident "T" 1, .punct ',' .alone 2])
    ∧ identNamesOf (posBindings (variantCount [TokenTree.ident "T" 1]))
        = (List.range (variantCount [TokenTree.ident "T" 1])).map
            fun i => String.mk ['_'] ++ toString i :=
  ⟨c4_positional_count.1 _,
   c4_positional_count.2.2 [] _ _ rfl rfl,
   c4_positional_count.2.1 _⟩

/-! Claim C5: generics collection and angle-bracket nesting -/

/-- The token stream of `enum Foo<T: Iterator<Item = u8>> { A = "x" }`,
a syntactically valid enum with a nested angle-bracket generic list
(`>>` lexes as two `>` puncts, the first with joint spacing). -/
def c5Input : List TokenTree :=
  [ .ident enumKw 1, .ident "Foo" 2, .punct '<' .alone 3,
    .ident "T" 4, .punct ':' .alone 5, .ident "Iterator" 6, .punct '<' .alone 7,
    .ident "Item" 8, .punct '=' .alone 9, .ident "u8" 10, .punct '>' .joint 11,
    .punct '>' .alone 12,
    .group .brace [ .ident "A" 13, .punct '=' .alone 14, .lit ⟨ "\"x\"", 15⟩] 16 ]

/-- Claim C5 (code bug).  The generics loop does NOT track angle-bracket
nesting depth: on the token sequence after the opening `<` of
`enum Foo<T: Iterator<Item = u8>>` it stops at the FIRST `>`, leaving the
second `>` in the stream (first conjunct); in consequence the whole
pipeline then reaches the `unreachable!("enum has braces")` of lib.rs line
314 and panics on this valid input (second conjunct), instead of keeping
the nested brackets inside `generics` as the claim states. -/
theorem c5_generics_no_depth_tracking :
    genLoop
        [ .ident "T" 4, .punct ':' .alone 5, .ident "Iterator" 6, .punct '<' .alone 7,
          .ident "Item" 8, .punct '=' .alone 9, .ident "u8" 10, .punct '>' .joint 11,
          .punct '>' .alone 12,
          .group .brace [ .ident "A" 13, .punct '=' .alone 14, .lit ⟨ "\"x\"", 15⟩] 16 ]
      = .ok ([ .ident "T" 4, .punct ':' .alone 5, .ident "Iterator" 6, .punct '<' .alone 7,
          .ident "Item" 8, .punct '=' .alone 9, .ident "u8" 10, .punct '>' .joint 11],
          [ .punct '>' .alone 12,
            .group .brace [ .ident "A" 13, .punct '=' .alone 14, .lit ⟨ "\"x\"", 15⟩] 16 ])
    ∧ display [] c5Input = .error (.panicked msgEnumHasBraces) :=
  ⟨rfl, rfl⟩

/-! Claim C6: the template extractor -/

/-- Spec-side notion of a string-valued literal: its source representation
begins with a quote character.  (Integer literals such as `5` do not.) -/
def litIsStringValued (l : Lit) : Bool :=
  match l.repr.data with
  | '"' :: _ => true
  | _ => false

/-- Claim C6 counterexample.  The extractor accepts ANY literal token, not
only string-valued ones: on the integer literal `5` it succeeds with no
"expected string literal" diagnostic, contradicting the claim that every
leading token other than a string-valued literal yields that diagnostic. -/
theorem c6_counterexample_integer_literal :
    litIsStringValued ⟨ "5", 7⟩ = false
    ∧ extract_string [.lit ⟨ "5", 7⟩] = .ok (.ok (⟨ "5", 7⟩, []), []) :=
  ⟨rfl, rfl⟩

/-- Claim C6 as amended.  Characterization of `extract_string` on every
non-empty stream: a leading literal of ANY kind succeeds with no extra
arguments; a parenthesized group whose first interior token is a literal
succeeds with the remaining interior tokens as extra arguments; a
parenthesized group whose first interior token is not a literal yields
"expected string literal" at that token's span; an empty parenthesized
group yields it at the group's span; any other leading token yields it at
that token's span. -/
theorem c6_extract_string_cases :
    (∀ (l : Lit) (rest : List TokenTree),
        extract_string (.lit l :: rest) = .ok (.ok (l, []), rest))
    ∧ (∀ (l : Lit) (more rest : List TokenTree) (gspan : Nat),
        extract_string (.group .paren (.lit l :: more) gspan :: rest)
          = .ok (.ok (l, more), rest))
    ∧ (∀ (x : TokenTree) (more rest : List TokenTree) (gspan : Nat),
        x.isLit = false →
          extract_string (.group .paren (x :: more) gspan :: rest)
            = .ok (.error ⟨x.span, msgExpectedStringLit⟩, rest))
    ∧ (∀ (gspan : Nat) (rest : List TokenTree),
        extract_string (.group .paren [] gspan :: rest)
          = .ok (.error ⟨gspan, msgExpectedStringLit⟩, rest))
    ∧ (∀ (t : TokenTree) (rest : List TokenTree),
        t.isLit = false → t.isGroupDelim .paren = false →
          extract_string (t :: rest) = .ok (.error ⟨t.span, msgExpectedStringLit⟩, rest)) := by
  refine ⟨fun l rest => rfl, fun l more rest gspan => rfl, ?_, fun gspan rest => rfl, ?_⟩
  · intro x more rest gspan hx
    cases x <;> simp only [TokenTree.isLit, Bool.true_eq_false] at hx <;> rfl
  · intro t rest hlit hgroup
    cases t with
    | ident n s => rfl
    | punct c sp s => rfl
    | lit l => simp only [TokenTree.isLit, Bool.true_eq_false] at hlit
    | group d g gs =>
        cases d with
        | paren => simp only [TokenTree.isGroupDelim, decide_True, Bool.true_eq_false] at hgroup
        | brace => rfl
        | bracket => rfl

theorem c6_extract_string_cases_witness :
    extract_string [.group .paren [ .ident "x" 3] 4]
      = .ok (.error ⟨3, msgExpectedStringLit⟩, [])
    ∧ extract_string [.punct '+' .alone 9]
      = .ok (.error ⟨9, msgExpectedStringLit⟩, []) :=
  ⟨c6_extract_string_cases.2.2.1 (.ident "x" 3) [] [] 4 rfl,
   c6_extract_string_cases.2.2.2.2 (.punct '+' .alone 9) [] rfl rfl⟩

/-! Claim C7: doc-comment content -/

/-- The token stream of `enum E { A = "unit variant" }`; the template
literal's source representation carries its quote characters, exactly as
`proc_macro` lexes it. -/
def c7Input : List TokenTree :=
  [ .ident enumKw 1, .ident "E" 2,
    .group .brace [ .ident "A" 4, .punct '=' .alone 3, .lit ⟨ "\"unit variant\"", 5⟩] 9 ]

/-- Claim C7 (code bug).  With the documentation flag set, the doc
annotation generated for variant `A = "unit variant"` has content
`Lit.string "\"unit variant\""` — that is, the template literal's SOURCE
REPRESENTATION, quotes included, because `doc_comment` receives
`Literal::to_string()` — and not the literal's textual content
`unit variant` as the claim (and the crate's own documentation, which
renders the example as `/// data store disconnected`) requires.  The
second conjunct records that the two contents differ. -/
theorem c7_doc_content_is_repr :
    (∃ P : DisplayParts,
        displayParts [.ident docKw 8] c7Input = .ok (.success P)
        ∧ P.variants
            = [ .punct '#' .joint 0,
                .group .bracket
                  [ .ident docKw 0, .punct '=' .joint 0,
                    .lit (Lit.string "\"unit variant\"")] 0,
                .ident "A" 4])
    ∧ Lit.string "\"unit variant\"" ≠ Lit.string "unit variant" :=
  ⟨⟨_, rfl, rfl⟩, by decide⟩

/-! Claim C8: the modifier parser -/

/-- Claim C8 counterexample.  On the modifier stream `doc extra` the parser
emits the "unexpected token" diagnostic at the trailing token but continues
with the documentation flag TRUE — not false as the claim states. -/
theorem c8_counterexample_trailing_token :
    parseArgs [.ident docKw 1, .ident "extra" 2]
      = (true, [⟨2, msgUnexpectedToken⟩]) := rfl

/-- Claim C8 as amended.  The modifier parser accepts exactly the single
documentation-flag identifier; an empty stream leaves the flag false with
no diagnostic; any other leading token yields "unexpected token" with the
flag false; a trailing token after the recognized flag yields "unexpected
token" at that token's span while the flag REMAINS TRUE. -/
theorem c8_modifier_parser_cases :
    parseArgs [] = (false, [])
    ∧ (∀ s : Nat, parseArgs [.ident docKw s] = (true, []))
    ∧ (∀ (s : Nat) (t : TokenTree) (rest : List TokenTree),
        parseArgs (.ident docKw s :: t :: rest)
          = (true, [⟨t.span, msgUnexpectedToken⟩]))
    ∧ (∀ (t : TokenTree) (rest : List TokenTree),
        t.isIdentStr docKw = false →
          parseArgs (t :: rest) = (false, [⟨t.span, msgUnexpectedToken⟩])) := by
  refine ⟨rfl, fun s => rfl, fun s t rest => rfl, ?_⟩
  intro t rest ht
  cases t with
  | ident n s =>
      simp only [TokenTree.isIdentStr, decide_eq_false_iff_not] at ht
      simp [parseArgs, ht, TokenTree.span]
  | punct c sp s => rfl
  | lit l => rfl
  | group d g gs => rfl

theorem c8_modifier_parser_cases_witness :
    parseArgs [.ident "docs" 5] = (false, [⟨5, msgUnexpectedToken⟩]) :=
  c8_modifier_parser_cases.2.2.2 (.ident "docs" 5) [] rfl

/-! Claim C9: loop termination -/

/-- Claim C9 counterexample.  On the truncated input `enum Foo <` the
pipeline does NOT terminate: having consumed the opening `<`, the generics
loop polls the exhausted iterator forever (the `None` result matches its
wildcard arm, extends nothing, and the loop repeats), modelled by the
`.diverge` outcome. -/
theorem c9_counterexample_truncated_generics :
    display [] [.ident enumKw 1, .ident "Foo" 2, .punct '<' .alone 3]
      = .error (.diverge "generics loop") := rfl

/-- Claim C9 as amended.  The generics-collection loop terminates (returns
a result) exactly when a `>` token occurs in the remaining input, and the
where-clause loop exactly when a brace-delimited group occurs; on inputs
with no such token each loop polls the exhausted iterator forever
(the `.diverge` outcome).  Every other loop of the pipeline consumes at
least one token per iteration and terminates unconditionally. -/
theorem c9_loop_termination (ts : List TokenTree) :
    ((∃ t ∈ ts, isGtTok t = true) ↔ ∃ g r, genLoop ts = .ok (g, r))
    ∧ ((∃ t ∈ ts, t.isGroupDelim .brace = true) ↔ ∃ w r, whereLoop ts = .ok (w, r))
    ∧ ((¬ ∃ t ∈ ts, isGtTok t = true) → genLoop ts = .error (.diverge "generics loop"))
    ∧ ((¬ ∃ t ∈ ts, t.isGroupDelim .brace = true) →
        whereLoop ts = .error (.diverge "where loop")) := by
  induction ts with
  | nil =>
      refine ⟨?_, ?_, fun _ => rfl, fun _ => rfl⟩ <;>
        simp [genLoop, whereLoop]
  | cons t rest ih =>
      obtain ⟨ih1, ih2, ih3, ih4⟩ := ih
      refine ⟨?_, ?_, ?_, ?_⟩
      · cases hgt : isGtTok t with
        | true =>
            constructor
            · intro _
              exact ⟨[t], rest, by simp [genLoop, hgt]⟩
            · intro _
              exact ⟨t, List.mem_cons_self t rest, hgt⟩
        | false =>
            constructor
            · rintro ⟨u, hu, hgtu⟩
              rcases List.mem_cons.mp hu with rfl | hu2
              · rw [hgt] at hgtu; exact absurd hgtu (by simp)
              · obtain ⟨g, r, hgr⟩ := ih1.mp ⟨u, hu2, hgtu⟩
                exact ⟨t :: g, r, by simp [genLoop, hgt, hgr]⟩
            · rintro ⟨g, r, hgr⟩
              cases hrest : genLoop rest with
              | error h => simp [genLoop, hgt, hrest] at hgr
              | ok pr =>
                  obtain ⟨u, hu2, hgtu⟩ := ih1.mpr ⟨pr.1, pr.2, by rw [hrest]⟩
                  exact ⟨u, List.mem_cons_of_mem t hu2, hgtu⟩
      · cases hbr : t.isGroupDelim .brace with
        | true =>
            constructor
            · intro _
              exact ⟨[], t :: rest, by simp [whereLoop, hbr]⟩
            · intro _
              exact ⟨t, List.mem_cons_self t rest, hbr⟩
        | false =>
            constructor
            · rintro ⟨u, hu, hbru⟩
              rcases List.mem_cons.mp hu with rfl | hu2
              · rw [hbr] at hbru; exact absurd hbru (by simp)
              · obtain ⟨w, r, hwr⟩ := ih2.mp ⟨u, hu2, hbru⟩
                exact ⟨t :: w, r, by simp [whereLoop, hbr, hwr]⟩
            · rintro ⟨w, r, hwr⟩
              cases hrest : whereLoop rest with
              | error h => simp [whereLoop, hbr, hrest] at hwr
              | ok pr =>
                  obtain ⟨u, hu2, hbru⟩ := ih2.mpr ⟨pr.1, pr.2, by rw [hrest]⟩
                  exact ⟨u, List.mem_cons_of_mem t hu2, hbru⟩
      · intro hno
        have hgt : isGtTok t = false := by
          cases hgt : isGtTok t with
          | true => exact absurd ⟨t, List.mem_cons_self t rest, hgt⟩ hno
          | false => rfl
        have hno2 : ¬ ∃ u ∈ rest, isGtTok u = true := by
          rintro ⟨u, hu2, hgtu⟩
          exact hno ⟨u, List.mem_cons_of_mem t hu2, hgtu⟩
        simp [genLoop, hgt, ih3 hno2]
      · intro hno
        have hbr : t.isGroupDelim .brace = false := by
          cases hbr : t.isGroupDelim .brace with
          | true => exact absurd ⟨t, List.mem_cons_self t rest, hbr⟩ hno
          | false => rfl
        have hno2 : ¬ ∃ u ∈ rest, u.isGroupDelim .brace = true := by
          rintro ⟨u, hu2, hbru⟩
          exact hno ⟨u, List.mem_cons_of_mem t hu2, hbru⟩
        simp [whereLoop, hbr, ih4 hno2]

theorem c9_loop_termination_witness :
    genLoop [.ident "T" 1] = .error (.diverge "generics loop")
    ∧ whereLoop [.ident "A" 2, .punct ':' .alone 3, .ident "B" 4]
      = .error (.diverge "where loop") :=
  ⟨(c9_loop_termination [.ident "T" 1]).2.2.1 (by simp [isGtTok, TokenTree.isPunct]),
   (c9_loop_termination [.ident "A" 2, .punct ':' .alone 3, .ident "B" 4]).2.2.2
     (by simp [TokenTree.isGroupDelim])⟩

/-! Claim C10: panic on a trailing `=` -/

/-- Claim C10.  On the input `enum E { A = }` — a well-delimited enum body
that ends with an `=` token followed by nothing — `display` panics: the
variant loop's `=` branch calls `extract_string` on the exhausted stream
and hits the `unreachable!` of lib.rs line 830 (message
`=` is always followed by an expression), instead of returning an output
token stream carrying a diagnostic. -/
theorem c10_panic_on_trailing_eq :
    display []
        [.ident enumKw 1, .ident "E" 2,
          .group .brace [ .ident "A" 3, .punct '=' .alone 4] 5]
      = .error (.panicked msgEqFollowedByExpr) := rfl
